import Mathlib

/-!
Verification of the corpus-analysis stage (`analyzer/analyze.py`) of the
document pipeline.  The Python source is shallowly embedded: pure helper
functions (`tokenize`, `jaccard_similarity`, `ngrams`, `avg`) become Lean
functions, the ingestion loop of `main` becomes a fold over an explicit
state, and Python floats are idealised as rationals (`ℚ`).  Unicode word
characters (`\w` under `re.UNICODE`) are modelled as alphanumeric
characters or the underscore; `str.lower` is modelled character-wise by
`lowerStr`.
-/

namespace Analyzer

/-- Python's `str.lower()` modelled character-wise. -/
def lowerStr (s : String) : String := (s.data.map Char.toLower).asString

/-- A character counted as a word character by the regex `\w`
(modelled as alphanumeric or underscore). -/
def isWordChar (c : Char) : Bool := c.isAlphanum || c == '_'

/-- A character that may appear inside a token of `\b[\w-]+\b`:
a word character or a hyphen. -/
def isTokenChar (c : Char) : Bool := isWordChar c || c == '-'

/-- Remove the trailing non-word characters (within a token run these are
exactly the hyphens) from a character list. -/
def dropTrailingNonWord (l : List Char) : List Char :=
  (l.reverse.dropWhile (fun c => !isWordChar c)).reverse

/-- Embedding of the scan performed by the regex engine for
`re.findall(r"\b[\w-]+\b", text)`: the matcher starts a match only at a
word character (a `\b` cannot hold before a hyphen that is not preceded by
a word character, and every word character is consumed by the match that
covers its run), extends greedily over token characters, and then
backtracks over trailing hyphens until the closing `\b` holds, i.e. until
the match ends in a word character; scanning resumes after the consumed
run. -/
def regexScan : List Char → List (List Char)
  | [] => []
  | c :: rest =>
    if isWordChar c then
      dropTrailingNonWord ((c :: rest).takeWhile isTokenChar) ::
        regexScan ((c :: rest).dropWhile isTokenChar)
    else
      regexScan rest
termination_by l => l.length
decreasing_by
  · simp only [List.dropWhile_cons]
    have h1 : isTokenChar c = true := by
      simp [isTokenChar, *]
    simp only [h1, if_pos rfl]
    exact Nat.lt_succ_of_le (rest.dropWhile_sublist _).length_le
  · simp

/-- Split a character list at every character satisfying `p`
(the separators are dropped; consecutive separators give empty chunks). -/
def splitChars (p : Char → Bool) : List Char → List (List Char)
  | [] => [[]]
  | c :: rest =>
    if p c then [] :: splitChars p rest
    else
      match splitChars p rest with
      | [] => [[c]]
      | r :: rs => (c :: r) :: rs

/-- Trim a run of token characters to its word boundaries: drop the
leading and the trailing hyphens, keeping internal ones. -/
def trimToken (run : List Char) : List Char :=
  dropTrailingNonWord (run.dropWhile (fun c => !isWordChar c))

/-- The token list of `re.findall(r"\b[\w-]+\b", text)`, stated the way
the spec describes it: the maximal runs of
`[letter|digit|underscore|hyphen]` characters, each trimmed to its word
boundaries, empty results discarded.  `regexScan` (the engine's scan) is
proved to agree with this definition. -/
def tokenizeL (l : List Char) : List (List Char) :=
  ((splitChars (fun c => !isTokenChar c) l).map trimToken).filter (fun t => t ≠ [])

/-- `tokenize(text)` from `analyze.py`: `re.findall(r"\b[\w-]+\b", text)`. -/
def tokenize (s : String) : List String :=
  (tokenizeL s.data).map List.asString

/-- A sentence-terminating character for `re.split(r"[.!?]+", text)`. -/
def isSentenceEnd (c : Char) : Bool := c == '.' || c == '!' || c == '?'

/-- `s.strip()` on a character list: drop leading and trailing whitespace. -/
def stripChars (l : List Char) : List Char :=
  ((l.dropWhile Char.isWhitespace).reverse.dropWhile Char.isWhitespace).reverse

/-- The sentence fragments of a text, as computed in the ingestion loop of
`main`: split on runs of `.`, `!`, `?`, strip each fragment, and keep the
non-empty ones.  (Splitting at every single terminator instead of at runs
produces the same non-empty stripped fragments.) -/
def sentencesOf (s : String) : List (List Char) :=
  ((splitChars isSentenceEnd s.data).map stripChars).filter (fun t => t ≠ [])

/-- `avg(nums)` from `analyze.py`: `sum/len` for non-empty input, `0.0`
for empty input. -/
def avg (l : List ℚ) : ℚ := if l = [] then 0 else l.sum / (l.length : ℚ)

/-- `round(x, 6)` idealised on rationals. -/
def round6 (q : ℚ) : ℚ := ((round (q * 1000000) : ℤ) : ℚ) / 1000000

/-- `round(x, 3)` idealised on rationals. -/
def round3 (q : ℚ) : ℚ := ((round (q * 1000) : ℤ) : ℚ) / 1000

/-- The core of `jaccard_similarity` on the two token sets:
`len(inter)/len(union)` when the union is non-empty, else `0.0`. -/
def jaccardSets (s1 s2 : Finset String) : ℚ :=
  if s1 ∪ s2 = ∅ then 0 else (((s1 ∩ s2).card : ℚ) / (((s1 ∪ s2).card : ℚ)))

/-- `jaccard_similarity(doc1_words, doc2_words)` from `analyze.py`:
build the two sets and divide intersection size by union size. -/
def jaccard_similarity (doc1_words doc2_words : List String) : ℚ :=
  jaccardSets doc1_words.toFinset doc2_words.toFinset

/-- `ngrams(tokens, n)` from `analyze.py`:
`[" ".join(tokens[i:i+n]) for i in range(0, max(0, len(tokens)-n+1))]`
(`tokens.length + 1 - n` is the truncated-subtraction form of
`max(0, len(tokens)-n+1)`). -/
def ngrams (tokens : List String) (n : Nat) : List String :=
  (List.range (tokens.length + 1 - n)).map
    (fun i => String.intercalate " " ((tokens.drop i).take n))

/-- The distinct elements of a list, in first-occurrence order: the key
order of a Python `Counter`/`dict` built by iterating the list. -/
def firstOccs : List String → List String
  | [] => []
  | x :: rest => x :: (firstOccs rest).filter (fun y => y ≠ x)

/-- An item of a `Counter` over a stream: the word, its number of
occurrences, and the position of its first occurrence in the stream
(which determines the `Counter`'s insertion order). -/
structure CItem where
  idx : Nat
  word : String
  count : Nat
deriving DecidableEq, Repr

/-- The items of `Counter(stream)` in insertion order, each carrying its
count and its first-occurrence position. -/
def counterItems (l : List String) : List CItem :=
  (firstOccs l).map (fun w => ⟨l.indexOf w, w, l.count w⟩)

/-- Stable insertion of an item into a count-descending list: the new item
goes after every already-present item whose count is at least as large.
This matches the documented behaviour of `Counter.most_common`, which
keeps equal-count elements in the order first encountered. -/
def insertByCount (x : CItem) : List CItem → List CItem
  | [] => [x]
  | y :: ys => if y.count < x.count then x :: y :: ys else y :: insertByCount x ys

/-- Stable sort by descending count (insertion order of equal counts is
preserved because items are inserted in insertion order). -/
def sortByCountDesc (items : List CItem) : List CItem :=
  items.foldl (fun acc x => insertByCount x acc) []

/-- `Counter(stream).most_common(k)`: the `k` largest counts, in
descending count order, equal counts in first-encountered order. -/
def mostCommon (k : Nat) (l : List String) : List CItem :=
  (sortByCountDesc (counterItems l)).take k

/-- An entry of `top_100_words`. -/
structure WordEntry where
  word : String
  count : Nat
  frequency : ℚ
deriving DecidableEq, Repr

/-- An entry of `document_similarity`. -/
structure SimilarityEntry where
  doc1 : String
  doc2 : String
  similarity : ℚ
deriving DecidableEq, Repr

/-- An entry of `top_bigrams` / `top_trigrams`. -/
structure NgramEntry where
  gram : String
  count : Nat
deriving DecidableEq, Repr

/-- The `readability` object of the report. -/
structure Readability where
  avg_sentence_length : ℚ
  avg_word_length : ℚ
  complexity_score : ℚ
deriving DecidableEq, Repr

/-- The final report assembled by `main` (the non-deterministic
`processing_timestamp` is outside the model). -/
structure Report where
  documents_processed : Nat
  total_words : Nat
  unique_words : Nat
  top_100_words : List WordEntry
  document_similarity : List SimilarityEntry
  top_bigrams : List NgramEntry
  top_trigrams : List NgramEntry
  readability : Readability
deriving DecidableEq, Repr

/-- A successfully parsed per-document record: its file name (the `fn` key
used everywhere in `main`) and its `text` field
(`obj.get("text", "")`). -/
structure Doc where
  id : String
  text : String
deriving DecidableEq, Repr

/-- The per-document mean tokens-per-sentence appended to
`doc_avg_sentence_len` in the ingestion loop. -/
def docAvgSentenceLen (d : Doc) : ℚ :=
  avg ((sentencesOf d.text).map (fun s => ((tokenizeL s).length : ℚ)))

/-- The per-document mean token character length appended to
`doc_avg_word_len` in the ingestion loop. -/
def docAvgWordLen (d : Doc) : ℚ :=
  avg ((tokenize d.text).map (fun t => (t.length : ℚ)))

/-- The lower-cased token set of a document, as stored in
`doc_word_sets[fn]`. -/
def docWordSet (d : Doc) : Finset String :=
  ((tokenize d.text).map lowerStr).toFinset

/-- Update of the `doc_word_sets` dict: overwrite an existing binding in
place, otherwise append a new one (Python dict semantics). -/
def updateAssoc : List (String × Finset String) → String → Finset String →
    List (String × Finset String)
  | [], k, v => [(k, v)]
  | p :: m, k, v => if p.1 = k then (k, v) :: m else p :: updateAssoc m k v

/-- Lookup in the `doc_word_sets` dict with default `[]`
(`doc_word_sets.get(fn, [])`, whose token collection is the empty set). -/
def lookupSet (m : List (String × Finset String)) (k : String) : Finset String :=
  match m.find? (fun p => p.1 == k) with
  | some p => p.2
  | none => ∅

/-- The mutable state accumulated by the ingestion loop of `main`. -/
structure IngestState where
  all_tokens : List String
  total_words : Nat
  doc_word_sets : List (String × Finset String)
  doc_avg_sentence_len : List ℚ
  doc_avg_word_len : List ℚ

/-- One iteration of the ingestion loop of `main` on document `d`. -/
def ingestStep (st : IngestState) (d : Doc) : IngestState :=
  { all_tokens := st.all_tokens ++ tokenize d.text
    total_words := st.total_words + (tokenize d.text).length
    doc_word_sets := updateAssoc st.doc_word_sets d.id (docWordSet d)
    doc_avg_sentence_len := st.doc_avg_sentence_len ++ [docAvgSentenceLen d]
    doc_avg_word_len := st.doc_avg_word_len ++ [docAvgWordLen d] }

/-- The ingestion loop of `main` over the (sorted) document list. -/
def ingest (docs : List Doc) : IngestState :=
  docs.foldl ingestStep ⟨[], 0, [], [], []⟩

/-- `itertools.combinations(l, 2)` in input order: every pair of distinct
positions `(i, j)` with `i < j`, all pairs for the first element before
moving to the second, and so on. -/
def combPairs {α : Type} : List α → List (α × α)
  | [] => []
  | x :: rest => rest.map (fun y => (x, y)) ++ combPairs rest

/-- The pure aggregation core of `main`: from the parsed document list to
the report object. -/
def mainReport (docs : List Doc) : Report :=
  let st := ingest docs
  let lowered := st.all_tokens.map lowerStr
  { documents_processed := docs.length
    total_words := st.total_words
    unique_words := lowered.toFinset.card
    top_100_words :=
      (mostCommon 100 lowered).map (fun it =>
        ⟨it.word, it.count,
         round6 (if st.total_words = 0 then 0
                 else (it.count : ℚ) / (st.total_words : ℚ))⟩)
    document_similarity :=
      (combPairs docs).map (fun p =>
        ⟨p.1.id, p.2.id,
         round6 (jaccardSets (lookupSet st.doc_word_sets p.1.id)
                             (lookupSet st.doc_word_sets p.2.id))⟩)
    top_bigrams := (mostCommon 100 (ngrams lowered 2)).map (fun it => ⟨it.word, it.count⟩)
    top_trigrams := (mostCommon 100 (ngrams lowered 3)).map (fun it => ⟨it.word, it.count⟩)
    readability :=
      let aSent := avg st.doc_avg_sentence_len
      let aWord := avg st.doc_avg_word_len
      ⟨round3 aSent, round3 aWord, round6 (aSent * (aWord / 5))⟩ }

/-- Reading one `processed/*.json` file in the ingestion loop: `json.load`
either yields a record (here already reduced to its `fn`/`text` view) or
raises, and the loop has no handler, so the first parse error propagates
out of `main`. -/
def loadDocs : List (Except String Doc) → Except String (List Doc)
  | [] => .ok []
  | .error e :: _ => .error e
  | .ok d :: rest =>
    match loadDocs rest with
    | .ok ds => .ok (d :: ds)
    | .error e => .error e

/-- The run of the analyzer on the parse outcomes of the files of
`processed/`, in sorted order: ingest every record (aborting on the first
parse error, as the unguarded `json.load` does) and aggregate. -/
def runAnalyzer (records : List (Except String Doc)) : Except String Report :=
  match loadDocs records with
  | .ok docs => .ok (mainReport docs)
  | .error e => .error e

/-- The two file writes at the end of `main`, in program order. -/
inductive WriteStep where
  | report
  | marker
deriving DecidableEq, Repr

/-- The final write sequence of `main`: dump the report to
`analysis/final_report.json`, then dump the completion marker to
`status/analyze_complete.json` — two separate `with open(...)` blocks. -/
def finalWrites : List WriteStep := [WriteStep.report, WriteStep.marker]

/-- Straight-line execution of a write sequence where an attempted write
may raise (`fails`): a raise aborts the run immediately (no handler in
`main`), so the result is the list of completed writes and a flag telling
whether the run finished without error. -/
def runWrites (fails : WriteStep → Bool) : List WriteStep → List WriteStep × Bool
  | [] => ([], true)
  | s :: rest =>
    if fails s then ([], false)
    else
      let r := runWrites fails rest
      (s :: r.1, r.2)



/-- The single concatenated, lower-cased token stream of the entire
corpus: the documents' token lists in their stable ingestion order,
lower-cased and concatenated. -/
def corpusStream (docs : List Doc) : List String :=
  docs.flatMap (fun d => (tokenize d.text).map lowerStr)

/-- The index pairs `(i, j)` with `i < j < n`, enumerated the way the spec
describes the similarity records: all pairs for the first document before
moving to the second, and so on. -/
def idxPairs (n : Nat) : List (Nat × Nat) :=
  (List.range n).flatMap (fun i =>
    ((List.range n).filter (fun j => i < j)).map (fun j => (i, j)))

/-- The `document_similarity` list stated the way the spec describes it:
one record per unordered pair of distinct documents `(i, j)` with `i`
before `j` in ingestion order, in enumeration order, whose similarity is
the intersection-over-union of the two lower-cased token sets (`0` when
the union is empty), rounded to 6 decimal places. -/
def specSimilarity (docs : List Doc) : List SimilarityEntry :=
  (idxPairs docs.length).map (fun p =>
    let d1 := docs.getD p.1 ⟨"", ""⟩
    let d2 := docs.getD p.2 ⟨"", ""⟩
    let s1 := ((tokenize d1.text).map lowerStr).toFinset
    let s2 := ((tokenize d2.text).map lowerStr).toFinset
    ⟨d1.id, d2.id,
     round6 (if s1 ∪ s2 = ∅ then 0
             else ((s1 ∩ s2).card : ℚ) / ((s1 ∪ s2).card : ℚ))⟩)

/-! ### Tokenizer: the regex-engine scan agrees with the spec's description -/

theorem splitChars_ne_nil (p : Char → Bool) (l : List Char) : splitChars p l ≠ [] := by
  cases l with
  | nil => simp [splitChars]
  | cons c rest =>
    simp only [splitChars]
    split
    · simp
    · split <;> simp

theorem splitChars_append_nosep (p : Char → Bool) (run m : List Char)
    (h : ∀ c ∈ run, p c = false) :
    splitChars p (run ++ m) =
      (run ++ (splitChars p m).headD []) :: (splitChars p m).tail := by
  induction run with
  | nil =>
    cases hm : splitChars p m with
    | nil => exact absurd hm (splitChars_ne_nil p m)
    | cons r rs => simp [hm]
  | cons c run ih =>
    have hc : p c = false := h c (by simp)
    have hrun : ∀ x ∈ run, p x = false := fun x hx => h x (by simp [hx])
    simp only [List.cons_append, splitChars, hc, Bool.false_eq_true, if_false,
      List.append_eq]
    rw [ih hrun]

theorem dropWhile_append_singleton_ne_nil (p : Char → Bool) (xs : List Char) (c : Char)
    (hc : p c = false) : (xs ++ [c]).dropWhile p ≠ [] := by
  induction xs with
  | nil => simp [List.dropWhile, hc]
  | cons x xs ih =>
    simp only [List.cons_append, List.dropWhile_cons]
    split
    · exact ih
    · simp

theorem dropTrailingNonWord_cons_ne_nil (c : Char) (t : List Char)
    (hc : isWordChar c = true) : dropTrailingNonWord (c :: t) ≠ [] := by
  unfold dropTrailingNonWord
  intro h
  have h2 : (c :: t).reverse.dropWhile (fun c => !isWordChar c) = [] :=
    List.reverse_eq_nil_iff.mp h
  have h3 : (t.reverse ++ [c]).dropWhile (fun c => !isWordChar c) = [] := by
    simpa using h2
  exact dropWhile_append_singleton_ne_nil _ t.reverse c (by simp [hc]) h3

theorem tokenizeL_nil : tokenizeL [] = [] := rfl

theorem trimToken_nil : trimToken [] = [] := rfl

theorem trimToken_cons_nonword (c : Char) (r : List Char) (hc : isWordChar c = false) :
    trimToken (c :: r) = trimToken r := by
  simp [trimToken, List.dropWhile_cons, hc]

theorem tokenizeL_cons_sep (c : Char) (rest : List Char) (hc : isTokenChar c = false) :
    tokenizeL (c :: rest) = tokenizeL rest := by
  simp only [tokenizeL, splitChars, hc, Bool.not_false, if_pos rfl, List.map_cons,
    List.filter_cons, trimToken_nil]
  simp [trimToken_nil]

theorem tokenizeL_cons_hyphen (c : Char) (rest : List Char)
    (hc : isTokenChar c = true) (hw : isWordChar c = false) :
    tokenizeL (c :: rest) = tokenizeL rest := by
  simp only [tokenizeL, splitChars, hc, Bool.not_true, Bool.false_eq_true, if_false]
  cases hs : splitChars (fun c => !isTokenChar c) rest with
  | nil => exact absurd hs (splitChars_ne_nil _ rest)
  | cons r rs =>
    simp only [List.map_cons, List.filter_cons, trimToken_cons_nonword c r hw]

theorem dropWhile_eq_cons_head_false {α : Type} (p : α → Bool) :
    ∀ (l : List α) {d : α} {m : List α}, l.dropWhile p = d :: m → p d = false := by
  intro l
  induction l with
  | nil => intro d m h; simp at h
  | cons x xs ih =>
    intro d m h
    rw [List.dropWhile_cons] at h
    by_cases hx : p x = true
    · rw [if_pos hx] at h
      exact ih h
    · rw [if_neg hx] at h
      have hxd : x = d := (List.cons.injEq _ _ _ _ ▸ h).1
      rw [← hxd]
      simpa using hx

theorem tokenizeL_cons_word (c : Char) (rest : List Char) (hw : isWordChar c = true) :
    tokenizeL (c :: rest) =
      dropTrailingNonWord (c :: rest.takeWhile isTokenChar) ::
        tokenizeL (rest.dropWhile isTokenChar) := by
  have htok : isTokenChar c = true := by simp [isTokenChar, hw]
  have hsplit : c :: rest = (c :: rest.takeWhile isTokenChar) ++ rest.dropWhile isTokenChar := by
    rw [List.cons_append, List.takeWhile_append_dropWhile]
  have hnosep : ∀ x ∈ c :: rest.takeWhile isTokenChar, (fun c => !isTokenChar c) x = false := by
    intro x hx
    rcases List.mem_cons.mp hx with h | h
    · simp [h, htok]
    · simp [List.mem_takeWhile_imp h]
  have htrim : trimToken (c :: rest.takeWhile isTokenChar) =
      dropTrailingNonWord (c :: rest.takeWhile isTokenChar) := by
    simp [trimToken, List.dropWhile_cons, hw]
  have htrim_ne : trimToken (c :: rest.takeWhile isTokenChar) ≠ [] := by
    rw [htrim]
    exact dropTrailingNonWord_cons_ne_nil c _ hw
  cases hD : rest.dropWhile isTokenChar with
  | nil =>
    rw [hD] at hsplit
    have h1 : splitChars (fun c => !isTokenChar c)
        ((c :: rest.takeWhile isTokenChar) ++ []) = [c :: rest.takeWhile isTokenChar] := by
      rw [splitChars_append_nosep _ _ [] hnosep]
      simp [splitChars]
    conv_lhs => rw [hsplit]
    rw [tokenizeL, h1, tokenizeL_nil]
    have hne : dropTrailingNonWord (c :: rest.takeWhile isTokenChar) ≠ [] :=
      dropTrailingNonWord_cons_ne_nil c _ hw
    simp [htrim, hne]
  | cons d m' =>
    have hd : isTokenChar d = false := dropWhile_eq_cons_head_false isTokenChar rest hD
    rw [hD] at hsplit
    have hsc : splitChars (fun c => !isTokenChar c) (d :: m') =
        [] :: splitChars (fun c => !isTokenChar c) m' := by
      simp [splitChars, hd]
    have h1 : splitChars (fun c => !isTokenChar c)
        ((c :: rest.takeWhile isTokenChar) ++ (d :: m')) =
        (c :: rest.takeWhile isTokenChar) :: splitChars (fun c => !isTokenChar c) m' := by
      rw [splitChars_append_nosep _ _ _ hnosep, hsc]
      simp
    conv_lhs => rw [hsplit]
    rw [tokenizeL, h1]
    rw [show tokenizeL (d :: m') =
        ((splitChars (fun c => !isTokenChar c) m').map trimToken).filter (fun t => t ≠ []) by
      rw [tokenizeL, hsc]
      simp [trimToken_nil]]
    have hne : dropTrailingNonWord (c :: rest.takeWhile isTokenChar) ≠ [] :=
      dropTrailingNonWord_cons_ne_nil c _ hw
    simp [htrim, hne, List.filter_cons]

theorem regexScan_eq_tokenizeL (l : List Char) : regexScan l = tokenizeL l := by
  have key : ∀ n, ∀ l : List Char, l.length ≤ n → regexScan l = tokenizeL l := by
    intro n
    induction n with
    | zero =>
      intro l hl
      have h0 : l = [] := List.length_eq_zero.mp (Nat.le_zero.mp hl)
      subst h0
      rw [regexScan, tokenizeL_nil]
    | succ n ih =>
      intro l hl
      cases l with
      | nil => rw [regexScan, tokenizeL_nil]
      | cons c rest =>
        have hrest : rest.length ≤ n := by simpa using Nat.le_of_succ_le_succ hl
        by_cases hw : isWordChar c = true
        · have htok : isTokenChar c = true := by simp [isTokenChar, hw]
          rw [regexScan]
          simp only [hw, if_pos rfl]
          rw [tokenizeL_cons_word c rest hw]
          have hTD : (c :: rest).takeWhile isTokenChar = c :: rest.takeWhile isTokenChar := by
            simp [List.takeWhile_cons, htok]
          have hDD : (c :: rest).dropWhile isTokenChar = rest.dropWhile isTokenChar := by
            simp [List.dropWhile_cons, htok]
          rw [hTD, hDD, ih (rest.dropWhile isTokenChar)
            (le_trans (rest.dropWhile_sublist isTokenChar).length_le hrest)]
          simp
        · have hw' : isWordChar c = false := by simpa using hw
          rw [regexScan]
          simp only [hw', Bool.false_eq_true, if_false]
          rw [ih rest hrest]
          by_cases htok : isTokenChar c = true
          · exact (tokenizeL_cons_hyphen c rest htok hw').symm
          · exact (tokenizeL_cons_sep c rest (by simpa using htok)).symm
  exact key l.length l le_rfl

/-! ### `Counter.most_common`: a stable sort by descending count -/

/-- The strict order realised by `most_common`: larger counts first, equal
counts in first-encountered order. -/
def countOrder (x y : CItem) : Prop :=
  y.count < x.count ∨ (y.count = x.count ∧ x.idx < y.idx)

theorem mem_insertByCount {x z : CItem} :
    ∀ {l : List CItem}, z ∈ insertByCount x l → z = x ∨ z ∈ l := by
  intro l
  induction l with
  | nil =>
    intro h
    simp only [insertByCount, List.mem_singleton] at h
    exact Or.inl h
  | cons y ys ih =>
    intro h
    rw [insertByCount] at h
    split at h
    · rcases List.mem_cons.mp h with rfl | h2
      · exact Or.inl rfl
      · exact Or.inr h2
    · rcases List.mem_cons.mp h with rfl | h2
      · exact Or.inr (by simp)
      · rcases ih h2 with h3 | h3
        · exact Or.inl h3
        · exact Or.inr (by simp [h3])

theorem insertByCount_perm (x : CItem) (l : List CItem) :
    (insertByCount x l).Perm (x :: l) := by
  induction l with
  | nil => exact List.Perm.refl _
  | cons y ys ih =>
    rw [insertByCount]
    split
    · exact List.Perm.refl _
    · exact (ih.cons y).trans (List.Perm.swap x y ys)

theorem pairwise_insertByCount (x : CItem) (l : List CItem)
    (hl : l.Pairwise countOrder) (hidx : ∀ y ∈ l, y.idx < x.idx) :
    (insertByCount x l).Pairwise countOrder := by
  induction l with
  | nil => simp [insertByCount]
  | cons y ys ih =>
    rw [List.pairwise_cons] at hl
    obtain ⟨hy, hys⟩ := hl
    rw [insertByCount]
    by_cases h : y.count < x.count
    · rw [if_pos h]
      refine List.Pairwise.cons ?_ (List.Pairwise.cons hy hys)
      intro z hz
      rcases List.mem_cons.mp hz with rfl | hz'
      · exact Or.inl h
      · rcases hy z hz' with h2 | ⟨h2, _⟩
        · exact Or.inl (by omega)
        · exact Or.inl (by omega)
    · rw [if_neg h]
      refine List.Pairwise.cons ?_ (ih hys (fun z hz => hidx z (List.mem_cons_of_mem y hz)))
      intro z hz
      rcases mem_insertByCount hz with rfl | hz'
      · rcases Nat.lt_or_eq_of_le (Nat.le_of_not_lt h) with h2 | h2
        · exact Or.inl h2
        · exact Or.inr ⟨h2, hidx y (by simp)⟩
      · exact hy z hz'

theorem foldl_insert_perm (items : List CItem) :
    ∀ acc : List CItem,
      (items.foldl (fun acc x => insertByCount x acc) acc).Perm (acc ++ items) := by
  induction items with
  | nil => intro acc; simp
  | cons x rest ih =>
    intro acc
    rw [List.foldl_cons]
    exact (ih (insertByCount x acc)).trans
      (((insertByCount_perm x acc).append_right rest).trans List.perm_middle.symm)

theorem foldl_insert_pairwise (items : List CItem) :
    ∀ acc : List CItem,
      acc.Pairwise countOrder →
      (∀ a ∈ acc, ∀ b ∈ items, a.idx < b.idx) →
      items.Pairwise (fun a b => a.idx < b.idx) →
      (items.foldl (fun acc x => insertByCount x acc) acc).Pairwise countOrder := by
  induction items with
  | nil =>
    intro acc h _ _
    simpa using h
  | cons x rest ih =>
    intro acc hacc hcross hitems
    rw [List.pairwise_cons] at hitems
    rw [List.foldl_cons]
    apply ih
    · exact pairwise_insertByCount x acc hacc (fun y hy => hcross y hy x (by simp))
    · intro a ha b hb
      rcases mem_insertByCount ha with rfl | ha'
      · exact hitems.1 b hb
      · exact hcross a ha' b (by simp [hb])
    · exact hitems.2

theorem sortByCountDesc_perm (items : List CItem) :
    (sortByCountDesc items).Perm items := by
  simpa [sortByCountDesc] using foldl_insert_perm items []

theorem sortByCountDesc_pairwise (items : List CItem)
    (h : items.Pairwise (fun a b => a.idx < b.idx)) :
    (sortByCountDesc items).Pairwise countOrder :=
  foldl_insert_pairwise items [] (by simp) (by simp) h

theorem mem_firstOccs {w : String} : ∀ {l : List String}, w ∈ firstOccs l ↔ w ∈ l := by
  intro l
  induction l with
  | nil => simp [firstOccs]
  | cons x rest ih =>
    simp only [firstOccs, List.mem_cons, List.mem_filter]
    constructor
    · rintro (rfl | ⟨h1, _⟩)
      · exact Or.inl rfl
      · exact Or.inr (ih.mp h1)
    · rintro (rfl | h1)
      · exact Or.inl rfl
      · by_cases hx : w = x
        · exact Or.inl hx
        · exact Or.inr ⟨ih.mpr h1, by simp [hx]⟩

theorem nodup_firstOccs : ∀ l : List String, (firstOccs l).Nodup := by
  intro l
  induction l with
  | nil => simp [firstOccs]
  | cons x rest ih =>
    rw [firstOccs]
    refine List.Pairwise.cons ?_ (ih.filter _)
    intro y hy
    have h2 := (List.mem_filter.mp hy).2
    simp only [ne_eq, decide_not, Bool.not_eq_true', decide_eq_false_iff_not] at h2
    exact fun h => h2 h.symm

theorem pairwise_indexOf_firstOccs : ∀ l : List String,
    (firstOccs l).Pairwise (fun u v => l.indexOf u < l.indexOf v) := by
  intro l
  induction l with
  | nil => simp [firstOccs]
  | cons x rest ih =>
    rw [firstOccs]
    refine List.Pairwise.cons ?_ ?_
    · intro v hv
      have hvx : v ≠ x := by
        have h2 := (List.mem_filter.mp hv).2
        simpa using h2
      rw [List.indexOf_cons_self, List.indexOf_cons_ne _ (fun h => hvx h.symm)]
      omega
    · apply List.Pairwise.imp_of_mem ?_ (List.Pairwise.filter _ ih)
      intro a b ha hb hab
      have hax : a ≠ x := by simpa using (List.mem_filter.mp ha).2
      have hbx : b ≠ x := by simpa using (List.mem_filter.mp hb).2
      rw [List.indexOf_cons_ne _ (fun h => hax h.symm),
        List.indexOf_cons_ne _ (fun h => hbx h.symm)]
      omega

theorem counterItems_pairwise_idx (l : List String) :
    (counterItems l).Pairwise (fun a b => a.idx < b.idx) := by
  rw [counterItems, List.pairwise_map]
  exact pairwise_indexOf_firstOccs l

theorem mem_counterItems {l : List String} {it : CItem} (h : it ∈ counterItems l) :
    it.word ∈ l ∧ it.count = l.count it.word ∧ it.idx = l.indexOf it.word := by
  rw [counterItems] at h
  rcases List.mem_map.mp h with ⟨w, hw, rfl⟩
  exact ⟨mem_firstOccs.mp hw, rfl, rfl⟩

theorem counterItems_map_word (l : List String) :
    (counterItems l).map CItem.word = firstOccs l := by
  rw [counterItems, List.map_map]
  exact List.map_id _

theorem mostCommon_pairwise (k : Nat) (l : List String) :
    (mostCommon k l).Pairwise countOrder :=
  List.Pairwise.sublist (List.take_sublist _ _)
    (sortByCountDesc_pairwise _ (counterItems_pairwise_idx l))

theorem mem_mostCommon {k : Nat} {l : List String} {it : CItem} (h : it ∈ mostCommon k l) :
    it.word ∈ l ∧ it.count = l.count it.word ∧ it.idx = l.indexOf it.word :=
  mem_counterItems ((sortByCountDesc_perm _).mem_iff.mp (List.mem_of_mem_take h))

theorem mostCommon_length (k : Nat) (l : List String) :
    (mostCommon k l).length = min k (firstOccs l).length := by
  rw [mostCommon, List.length_take, (sortByCountDesc_perm _).length_eq, counterItems,
    List.length_map]

theorem mostCommon_words_nodup (k : Nat) (l : List String) :
    ((mostCommon k l).map CItem.word).Nodup := by
  have h1 : ((sortByCountDesc (counterItems l)).map CItem.word).Nodup := by
    rw [((sortByCountDesc_perm (counterItems l)).map CItem.word).nodup_iff,
      counterItems_map_word]
    exact nodup_firstOccs l
  exact List.Nodup.sublist ((List.take_sublist _ _).map _) h1

theorem mostCommon_top (k : Nat) (l : List String) {w : String} (hw : w ∈ l)
    (hnot : w ∉ (mostCommon k l).map CItem.word) :
    ∀ it ∈ mostCommon k l, l.count w ≤ it.count := by
  intro it hit
  have hwitem : (⟨l.indexOf w, w, l.count w⟩ : CItem) ∈ sortByCountDesc (counterItems l) :=
    (sortByCountDesc_perm _).mem_iff.mpr
      (List.mem_map_of_mem _ (mem_firstOccs.mpr hw))
  have hsplit : (sortByCountDesc (counterItems l)).take k ++
      (sortByCountDesc (counterItems l)).drop k = sortByCountDesc (counterItems l) :=
    List.take_append_drop k _
  have hdrop : (⟨l.indexOf w, w, l.count w⟩ : CItem) ∈
      (sortByCountDesc (counterItems l)).drop k := by
    have h2 : (⟨l.indexOf w, w, l.count w⟩ : CItem) ∈
        (sortByCountDesc (counterItems l)).take k ++
          (sortByCountDesc (counterItems l)).drop k := by
      rw [hsplit]
      exact hwitem
    rcases List.mem_append.mp h2 with h3 | h3
    · exact absurd (List.mem_map_of_mem CItem.word h3) hnot
    · exact h3
  have hpair : ((sortByCountDesc (counterItems l)).take k ++
      (sortByCountDesc (counterItems l)).drop k).Pairwise countOrder := by
    rw [hsplit]
    exact sortByCountDesc_pairwise _ (counterItems_pairwise_idx l)
  have h4 := (List.pairwise_append.mp hpair).2.2 it hit _ hdrop
  rcases h4 with h5 | ⟨h5, _⟩
  · exact Nat.le_of_lt h5
  · exact Nat.le_of_eq h5

/-! ### Closed forms of the ingestion loop -/

theorem ingest_foldl_all_tokens (docs : List Doc) :
    ∀ st : IngestState,
      (docs.foldl ingestStep st).all_tokens =
        st.all_tokens ++ docs.flatMap (fun d => tokenize d.text) := by
  induction docs with
  | nil => intro st; simp
  | cons d rest ih =>
    intro st
    rw [List.foldl_cons, ih]
    simp [ingestStep]

theorem ingest_all_tokens (docs : List Doc) :
    (ingest docs).all_tokens = docs.flatMap (fun d => tokenize d.text) := by
  rw [ingest, ingest_foldl_all_tokens]
  simp

theorem ingest_foldl_total_words (docs : List Doc) :
    ∀ st : IngestState,
      (docs.foldl ingestStep st).total_words =
        st.total_words + (docs.map (fun d => (tokenize d.text).length)).sum := by
  induction docs with
  | nil => intro st; simp
  | cons d rest ih =>
    intro st
    rw [List.foldl_cons, ih]
    simp [ingestStep]
    omega

theorem ingest_total_words (docs : List Doc) :
    (ingest docs).total_words = (docs.map (fun d => (tokenize d.text).length)).sum := by
  rw [ingest, ingest_foldl_total_words]
  simp

theorem ingest_foldl_sentence (docs : List Doc) :
    ∀ st : IngestState,
      (docs.foldl ingestStep st).doc_avg_sentence_len =
        st.doc_avg_sentence_len ++ docs.map docAvgSentenceLen := by
  induction docs with
  | nil => intro st; simp
  | cons d rest ih =>
    intro st
    rw [List.foldl_cons, ih]
    simp [ingestStep]

theorem ingest_doc_avg_sentence_len (docs : List Doc) :
    (ingest docs).doc_avg_sentence_len = docs.map docAvgSentenceLen := by
  rw [ingest, ingest_foldl_sentence]
  simp

theorem ingest_foldl_word_len (docs : List Doc) :
    ∀ st : IngestState,
      (docs.foldl ingestStep st).doc_avg_word_len =
        st.doc_avg_word_len ++ docs.map docAvgWordLen := by
  induction docs with
  | nil => intro st; simp
  | cons d rest ih =>
    intro st
    rw [List.foldl_cons, ih]
    simp [ingestStep]

theorem ingest_doc_avg_word_len (docs : List Doc) :
    (ingest docs).doc_avg_word_len = docs.map docAvgWordLen := by
  rw [ingest, ingest_foldl_word_len]
  simp

/-! ### The `doc_word_sets` dict -/

theorem lookupSet_updateAssoc_self (m : List (String × Finset String)) (k : String)
    (v : Finset String) : lookupSet (updateAssoc m k v) k = v := by
  induction m with
  | nil => simp [updateAssoc, lookupSet, List.find?_cons]
  | cons p m ih =>
    rw [updateAssoc]
    by_cases h : p.1 = k
    · rw [if_pos h]
      simp [lookupSet, List.find?_cons]
    · rw [if_neg h]
      simp only [lookupSet, List.find?_cons] at ih ⊢
      have hb : (p.1 == k) = false := by simpa using h
      rw [hb]
      exact ih

theorem lookupSet_updateAssoc_ne (m : List (String × Finset String)) (k k' : String)
    (v : Finset String) (h : k' ≠ k) :
    lookupSet (updateAssoc m k v) k' = lookupSet m k' := by
  induction m with
  | nil =>
    simp only [updateAssoc, lookupSet, List.find?_cons]
    have hb : (k == k') = false := by simpa using fun hk => h hk.symm
    rw [hb]
  | cons p m ih =>
    rw [updateAssoc]
    by_cases hp : p.1 = k
    · rw [if_pos hp]
      simp only [lookupSet, List.find?_cons]
      have hb : (k == k') = false := by simpa using fun hk => h hk.symm
      have hb2 : (p.1 == k') = false := by
        rw [hp]
        exact hb
      rw [hb, hb2]
    · rw [if_neg hp]
      simp only [lookupSet, List.find?_cons] at ih ⊢
      cases hb : (p.1 == k') with
      | true => rfl
      | false => exact ih

theorem lookupSet_foldl_ne (docs : List Doc) :
    ∀ (m : List (String × Finset String)) (k : String),
      (∀ d ∈ docs, d.id ≠ k) →
      lookupSet (docs.foldl (fun m d => updateAssoc m d.id (docWordSet d)) m) k =
        lookupSet m k := by
  induction docs with
  | nil => intro m k _; rfl
  | cons x rest ih =>
    intro m k h
    rw [List.foldl_cons, ih _ _ (fun d hd => h d (List.mem_cons_of_mem x hd))]
    exact lookupSet_updateAssoc_ne _ _ _ _ (fun hk => h x (by simp) hk.symm)

theorem ingest_foldl_doc_word_sets (docs : List Doc) :
    ∀ st : IngestState,
      (docs.foldl ingestStep st).doc_word_sets =
        docs.foldl (fun m d => updateAssoc m d.id (docWordSet d)) st.doc_word_sets := by
  induction docs with
  | nil => intro st; rfl
  | cons d rest ih =>
    intro st
    rw [List.foldl_cons, ih, List.foldl_cons]
    rfl

theorem lookupSet_foldl_mem (docs : List Doc) :
    ∀ m : List (String × Finset String),
      (docs.map Doc.id).Nodup →
      ∀ d ∈ docs,
        lookupSet (docs.foldl (fun m d => updateAssoc m d.id (docWordSet d)) m) d.id =
          docWordSet d := by
  induction docs with
  | nil => intro m _ d hd; simp at hd
  | cons x rest ih =>
    intro m hnd d hd
    rw [List.map_cons, List.nodup_cons] at hnd
    rcases List.mem_cons.mp hd with rfl | hd'
    · rw [List.foldl_cons,
        lookupSet_foldl_ne rest _ d.id
          (fun e he hid => hnd.1 (hid ▸ List.mem_map_of_mem Doc.id he)),
        lookupSet_updateAssoc_self]
    · exact ih _ hnd.2 d hd'

theorem lookup_ingest {docs : List Doc} (hnd : (docs.map Doc.id).Nodup)
    {d : Doc} (hd : d ∈ docs) :
    lookupSet (ingest docs).doc_word_sets d.id = docWordSet d := by
  rw [ingest, ingest_foldl_doc_word_sets]
  exact lookupSet_foldl_mem docs _ hnd d hd

/-! ### `itertools.combinations(docs, 2)` is the spec's pair enumeration -/

theorem map_getD_range {α β : Type} (f : α → β) (d : α) :
    ∀ l : List α, l.map f = (List.range l.length).map (fun j => f (l.getD j d)) := by
  intro l
  induction l with
  | nil => simp
  | cons a t ih =>
    rw [List.map_cons, List.length_cons, List.range_succ_eq_map, List.map_cons]
    congr 1
    rw [List.map_map, ih]
    congr 1

theorem filter_succ_lt_mapsucc (i n : Nat) :
    ((List.range n).map Nat.succ).filter (fun j => i + 1 < j) =
      ((List.range n).filter (fun j => i < j)).map Nat.succ := by
  rw [List.filter_map]
  exact congrArg _ (List.filter_congr (fun a _ => by
    simp [Function.comp, Nat.succ_lt_succ_iff]))

theorem filter_pos_mapsucc (n : Nat) :
    ((List.range n).map Nat.succ).filter (fun j => 0 < j) = (List.range n).map Nat.succ := by
  apply List.filter_eq_self.mpr
  intro a ha
  rcases List.mem_map.mp ha with ⟨b, _, rfl⟩
  simp

theorem idxPairs_succ (n : Nat) :
    idxPairs (n + 1) =
      (List.range n).map (fun j => (0, j + 1)) ++
        (idxPairs n).map (fun p => (p.1 + 1, p.2 + 1)) := by
  rw [idxPairs, List.range_succ_eq_map, List.flatMap_cons]
  congr 1
  · rw [List.filter_cons]
    have h0 : (decide ((0 : Nat) < 0)) = false := by simp
    rw [h0]
    simp only [Bool.false_eq_true, if_false]
    rw [filter_pos_mapsucc, List.map_map]
    rfl
  · rw [List.flatMap_map, idxPairs, List.map_flatMap]
    congr 1
    funext i
    rw [List.filter_cons]
    have h0 : (decide (i.succ < 0)) = false := by simp
    rw [h0]
    simp only [Bool.false_eq_true, if_false]
    rw [filter_succ_lt_mapsucc, List.map_map, List.map_map]
    rfl

theorem combPairs_eq_idxPairs {α : Type} (d : α) :
    ∀ l : List α,
      combPairs l = (idxPairs l.length).map (fun p => (l.getD p.1 d, l.getD p.2 d)) := by
  intro l
  induction l with
  | nil => simp [combPairs, idxPairs]
  | cons x rest ih =>
    rw [combPairs, List.length_cons, idxPairs_succ, List.map_append]
    congr 1
    · rw [List.map_map, map_getD_range (fun y => (x, y)) d rest]
      congr 1
    · rw [ih, List.map_map]
      congr 1

theorem mem_combPairs {α : Type} {p : α × α} :
    ∀ {l : List α}, p ∈ combPairs l → p.1 ∈ l ∧ p.2 ∈ l := by
  intro l
  induction l with
  | nil => intro h; simp [combPairs] at h
  | cons x rest ih =>
    intro h
    rw [combPairs] at h
    rcases List.mem_append.mp h with h1 | h1
    · rcases List.mem_map.mp h1 with ⟨y, hy, rfl⟩
      exact ⟨by simp, by simp [hy]⟩
    · exact ⟨List.mem_cons_of_mem _ (ih h1).1, List.mem_cons_of_mem _ (ih h1).2⟩

/-! ### Claim theorems -/

/-- C10: for all pairs of token collections `a` and `b`,
`jaccard_similarity(a, b) = jaccard_similarity(b, a)`, and the result lies
in the closed interval `[0, 1]`. -/
theorem jaccard_similarity_symm_unit_interval (doc1_words doc2_words : List String) :
    jaccard_similarity doc1_words doc2_words = jaccard_similarity doc2_words doc1_words ∧
    0 ≤ jaccard_similarity doc1_words doc2_words ∧
    jaccard_similarity doc1_words doc2_words ≤ 1 := by
  refine ⟨?_, ?_, ?_⟩
  · rw [jaccard_similarity, jaccard_similarity, jaccardSets, jaccardSets,
      Finset.union_comm doc1_words.toFinset doc2_words.toFinset,
      Finset.inter_comm doc1_words.toFinset doc2_words.toFinset]
  · rw [jaccard_similarity, jaccardSets]
    split
    · exact le_refl 0
    · positivity
  · rw [jaccard_similarity, jaccardSets]
    split
    · norm_num
    · rename_i h
      rw [div_le_one (by
        have : 0 < (doc1_words.toFinset ∪ doc2_words.toFinset).card :=
          Finset.card_pos.mpr (Finset.nonempty_iff_ne_empty.mpr h)
        exact_mod_cast this)]
      exact_mod_cast Finset.card_le_card
        (Finset.inter_subset_union (s := doc1_words.toFinset) (t := doc2_words.toFinset))

/-- C9: in every run the completion marker is written only after the
report write has fully completed — the two writes are separate sequenced
steps — and if the report write raises, the run surfaces the error and
the marker is never written. -/
theorem marker_only_after_report (fails : WriteStep → Bool) :
    (WriteStep.marker ∈ (runWrites fails finalWrites).1 →
      (runWrites fails finalWrites).1 = [WriteStep.report, WriteStep.marker] ∧
      (runWrites fails finalWrites).2 = true) ∧
    (fails WriteStep.report = true → runWrites fails finalWrites = ([], false)) := by
  by_cases h1 : fails WriteStep.report = true
  · constructor
    · intro hm
      rw [show runWrites fails finalWrites = ([], false) by
        simp [runWrites, finalWrites, h1]] at hm
      simp at hm
    · intro _
      simp [runWrites, finalWrites, h1]
  · have h1' : fails WriteStep.report = false := by simpa using h1
    by_cases h2 : fails WriteStep.marker = true
    · constructor
      · intro hm
        rw [show (runWrites fails finalWrites).1 = [WriteStep.report] by
          simp [runWrites, finalWrites, h1', h2]] at hm
        simp at hm
      · intro h
        exact absurd h h1
    · have h2' : fails WriteStep.marker = false := by simpa using h2
      constructor
      · intro _
        constructor <;> simp [runWrites, finalWrites, h1', h2']
      · intro h
        exact absurd h h1

/-- C9 witness: with no write failing, the trace is the full sequence;
with the report write failing, the run errors out with no marker. -/
theorem marker_only_after_report_witness :
    (WriteStep.marker ∈ (runWrites (fun _ => false) finalWrites).1 →
      (runWrites (fun _ => false) finalWrites).1 = [WriteStep.report, WriteStep.marker] ∧
      (runWrites (fun _ => false) finalWrites).2 = true) ∧
    ((fun s => s == WriteStep.report) WriteStep.report = true →
      runWrites (fun s => s == WriteStep.report) finalWrites = ([], false)) :=
  ⟨(marker_only_after_report (fun _ => false)).1,
   (marker_only_after_report (fun s => s == WriteStep.report)).2⟩

/-- C2: the claim says a malformed per-document record is skipped with a
warning and the run continues; the code has no handler around `json.load`,
so the first parse error aborts the whole aggregation.  Evaluated at a
collection whose second record is malformed: the run returns that error
instead of a report over the remaining documents. -/
theorem malformed_record_aborts_run :
    runAnalyzer [Except.ok ⟨"000.json", "good text"⟩,
        Except.error "Expecting value: line 1 column 1 (char 0)",
        Except.ok ⟨"002.json", "more text"⟩] =
      Except.error "Expecting value: line 1 column 1 (char 0)" := rfl

/-- C8: on zero ingested documents the aggregator still produces a
structurally complete report with all-zero and all-empty fields. -/
theorem empty_corpus_report :
    (mainReport []).documents_processed = 0 ∧
    (mainReport []).total_words = 0 ∧
    (mainReport []).unique_words = 0 ∧
    (mainReport []).top_100_words = [] ∧
    (mainReport []).document_similarity = [] ∧
    (mainReport []).readability.complexity_score = 0 := by
  refine ⟨rfl, rfl, rfl, rfl, rfl, ?_⟩
  show round6 (avg [] * (avg [] / 5)) = 0
  norm_num [avg, round6]

/-- C6: `tokenize` agrees with the regex engine's scan for
`\b[\w-]+\b` and with the spec's rule — the maximal runs of
`[letter|digit|underscore|hyphen]` characters trimmed to their word
boundaries (so internal hyphens are kept) — and the empty input yields
the empty sequence. -/
theorem tokenize_boundary_rule :
    (∀ s : String, tokenize s = (regexScan s.data).map List.asString) ∧
    (∀ s : String, tokenize s =
      (((splitChars (fun c => !isTokenChar c) s.data).map trimToken).filter
        (fun t => t ≠ [])).map List.asString) ∧
    tokenize "" = [] :=
  ⟨fun s => congrArg _ (regexScan_eq_tokenizeL s.data).symm,
   fun _ => rfl, rfl⟩

/-- C5: `total_words` is the sum over documents of `len(tokenize(text))`,
`unique_words` is the cardinality of the set of lower-cased tokens across
all documents, and `unique_words` never exceeds `total_words`. -/
theorem total_and_unique_words (docs : List Doc) :
    (mainReport docs).total_words = (docs.map (fun d => (tokenize d.text).length)).sum ∧
    (mainReport docs).unique_words =
      ((docs.flatMap (fun d => tokenize d.text)).map lowerStr).toFinset.card ∧
    (mainReport docs).unique_words ≤ (mainReport docs).total_words := by
  have htot : (mainReport docs).total_words =
      (docs.map (fun d => (tokenize d.text).length)).sum := by
    show (ingest docs).total_words = _
    exact ingest_total_words docs
  have huniq : (mainReport docs).unique_words =
      ((docs.flatMap (fun d => tokenize d.text)).map lowerStr).toFinset.card := by
    show ((ingest docs).all_tokens.map lowerStr).toFinset.card = _
    rw [ingest_all_tokens]
  refine ⟨htot, huniq, ?_⟩
  rw [htot, huniq]
  calc ((docs.flatMap (fun d => tokenize d.text)).map lowerStr).toFinset.card
      ≤ ((docs.flatMap (fun d => tokenize d.text)).map lowerStr).length :=
        List.toFinset_card_le _
    _ = (docs.flatMap (fun d => tokenize d.text)).length := List.length_map _ _
    _ = (docs.map (fun d => (tokenize d.text).length)).sum := by
        rw [List.length_flatMap]
        rfl

/-- C7: `avg_sentence_length` is the mean over documents of the document's
mean tokens-per-sentence (sentences obtained by splitting on runs of `.`,
`!`, `?` and discarding empty fragments), `avg_word_length` is the mean
over documents of the document's mean token character length, and
`complexity_score` is `avg_sentence_length * (avg_word_length / 5)`; the
report stores the two averages rounded to 3 decimal places and the score
rounded to 6. -/
theorem readability_formulas (docs : List Doc) :
    (mainReport docs).readability.avg_sentence_length =
      round3 (avg (docs.map docAvgSentenceLen)) ∧
    (mainReport docs).readability.avg_word_length =
      round3 (avg (docs.map docAvgWordLen)) ∧
    (mainReport docs).readability.complexity_score =
      round6 (avg (docs.map docAvgSentenceLen) * (avg (docs.map docAvgWordLen) / 5)) ∧
    (docs ≠ [] →
      (mainReport docs).readability.complexity_score =
        round6 (((docs.map docAvgSentenceLen).sum / (docs.length : ℚ)) *
          ((docs.map docAvgWordLen).sum / (docs.length : ℚ) / 5))) := by
  have h1 : (mainReport docs).readability.avg_sentence_length =
      round3 (avg (docs.map docAvgSentenceLen)) := by
    show round3 (avg (ingest docs).doc_avg_sentence_len) = _
    rw [ingest_doc_avg_sentence_len]
  have h2 : (mainReport docs).readability.avg_word_length =
      round3 (avg (docs.map docAvgWordLen)) := by
    show round3 (avg (ingest docs).doc_avg_word_len) = _
    rw [ingest_doc_avg_word_len]
  have h3 : (mainReport docs).readability.complexity_score =
      round6 (avg (docs.map docAvgSentenceLen) * (avg (docs.map docAvgWordLen) / 5)) := by
    show round6 (avg (ingest docs).doc_avg_sentence_len *
      (avg (ingest docs).doc_avg_word_len / 5)) = _
    rw [ingest_doc_avg_sentence_len, ingest_doc_avg_word_len]
  refine ⟨h1, h2, h3, ?_⟩
  intro hne
  rw [h3, avg, avg]
  rw [if_neg (by simpa using hne), if_neg (by simpa using hne)]
  rw [List.length_map, List.length_map]

/-- C3: with distinct document ids (filenames enumerated from one
directory are distinct), the `document_similarity` output is exactly one
record per unordered pair of distinct documents `(i, j)` with `i` before
`j` in ingestion order, in combinations-in-input order, each record
holding the Jaccard similarity of the two lower-cased token sets — `0`
when the union is empty — rounded to 6 decimal places. -/
theorem document_similarity_pairs (docs : List Doc)
    (hnd : (docs.map Doc.id).Nodup) :
    (mainReport docs).document_similarity = specSimilarity docs := by
  have hstep : (mainReport docs).document_similarity =
      (combPairs docs).map (fun p =>
        ⟨p.1.id, p.2.id, round6 (jaccardSets (docWordSet p.1) (docWordSet p.2))⟩) := by
    show (combPairs docs).map _ = _
    apply List.map_congr_left
    intro p hp
    obtain ⟨h1, h2⟩ := mem_combPairs hp
    rw [lookup_ingest hnd h1, lookup_ingest hnd h2]
  rw [hstep, combPairs_eq_idxPairs (⟨"", ""⟩ : Doc) docs, List.map_map]
  rfl

/-- C3 witness: the two-document corpus of the spec's worked example has
distinct ids, and its similarity output matches the spec enumeration. -/
theorem document_similarity_pairs_witness :
    (([⟨"a.json", "Cats chase mice. Mice run fast."⟩,
       ⟨"b.json", "Dogs chase cats."⟩] : List Doc).map Doc.id).Nodup ∧
    (mainReport [⟨"a.json", "Cats chase mice. Mice run fast."⟩,
       ⟨"b.json", "Dogs chase cats."⟩]).document_similarity =
      specSimilarity [⟨"a.json", "Cats chase mice. Mice run fast."⟩,
       ⟨"b.json", "Dogs chase cats."⟩] :=
  ⟨by decide, document_similarity_pairs _ (by decide)⟩

/-! ### The lowered corpus stream -/

theorem lowered_stream (docs : List Doc) :
    (ingest docs).all_tokens.map lowerStr = corpusStream docs := by
  rw [ingest_all_tokens, corpusStream, List.map_flatMap]

theorem corpusStream_length (docs : List Doc) :
    (corpusStream docs).length = (docs.map (fun d => (tokenize d.text).length)).sum := by
  rw [corpusStream, List.length_flatMap]
  apply congrArg List.sum
  apply List.map_congr_left
  intro d _
  simp [Function.comp]

theorem total_words_eq_stream_length (docs : List Doc) :
    (ingest docs).total_words = (corpusStream docs).length := by
  rw [ingest_total_words, corpusStream_length]

/-- C1 (amended): `top_100_words` has at most 100 entries (exactly the
number of distinct lower-cased tokens when that is smaller); it is empty
when `total_words` is 0; each entry carries the corpus-wide count of its
lower-cased word and `frequency = count / total_words` rounded to 6
decimal places; each word is listed at most once; entries are ranked by
descending count with ties broken by order of first occurrence in the
lower-cased corpus stream (the tie-break `Counter.most_common` documents
— not ascending lexicographic order); and no unlisted word outcounts a
listed one. -/
theorem top_100_words_spec (docs : List Doc) :
    (mainReport docs).top_100_words.length =
      min 100 (firstOccs (corpusStream docs)).length ∧
    (mainReport docs).top_100_words.length ≤ 100 ∧
    ((mainReport docs).total_words = 0 → (mainReport docs).top_100_words = []) ∧
    (∀ e ∈ (mainReport docs).top_100_words,
      e.word ∈ corpusStream docs ∧
      e.count = (corpusStream docs).count e.word ∧
      e.frequency = round6 ((e.count : ℚ) / ((mainReport docs).total_words : ℚ))) ∧
    ((mainReport docs).top_100_words.map WordEntry.word).Nodup ∧
    List.Pairwise (fun e1 e2 =>
      e2.count < e1.count ∨
        (e1.count = e2.count ∧
          (corpusStream docs).indexOf e1.word < (corpusStream docs).indexOf e2.word))
      (mainReport docs).top_100_words ∧
    (∀ w ∈ corpusStream docs,
      w ∉ (mainReport docs).top_100_words.map WordEntry.word →
      ∀ e ∈ (mainReport docs).top_100_words, (corpusStream docs).count w ≤ e.count) := by
  have htotdef : (mainReport docs).total_words = (ingest docs).total_words := rfl
  have hout : (mainReport docs).top_100_words =
      (mostCommon 100 (corpusStream docs)).map (fun it =>
        ⟨it.word, it.count,
         round6 (if (ingest docs).total_words = 0 then 0
                 else (it.count : ℚ) / ((ingest docs).total_words : ℚ))⟩) := by
    rw [← lowered_stream docs]
    rfl
  have hlen0 : (mainReport docs).top_100_words.length =
      min 100 (firstOccs (corpusStream docs)).length := by
    rw [hout, List.length_map, mostCommon_length]
  refine ⟨hlen0, ?_, ?_, ?_, ?_, ?_, ?_⟩
  · rw [hlen0]
    exact min_le_left _ _
  · intro h0
    have hS' : corpusStream docs = [] := by
      apply List.length_eq_zero.mp
      rw [← total_words_eq_stream_length, ← htotdef, h0]
    apply List.length_eq_zero.mp
    rw [hlen0, hS']
    simp [firstOccs]
  · intro e he
    rw [hout] at he
    rcases List.mem_map.mp he with ⟨it, hit, rfl⟩
    obtain ⟨hw, hc, _⟩ := mem_mostCommon hit
    have hne : (ingest docs).total_words ≠ 0 := by
      rw [total_words_eq_stream_length]
      intro h
      rw [List.length_eq_zero.mp h] at hw
      simp at hw
    refine ⟨hw, hc, ?_⟩
    show round6 (if (ingest docs).total_words = 0 then 0
      else (it.count : ℚ) / ((ingest docs).total_words : ℚ)) = _
    rw [if_neg hne, htotdef]
  · rw [hout, List.map_map]
    exact mostCommon_words_nodup 100 (corpusStream docs)
  · rw [hout, List.pairwise_map]
    apply List.Pairwise.imp_of_mem ?_ (mostCommon_pairwise 100 (corpusStream docs))
    intro it1 it2 h1 h2 hco
    obtain ⟨_, _, hi1⟩ := mem_mostCommon h1
    obtain ⟨_, _, hi2⟩ := mem_mostCommon h2
    rcases hco with h | ⟨heq, hlt⟩
    · exact Or.inl h
    · refine Or.inr ⟨heq.symm, ?_⟩
      show (corpusStream docs).indexOf it1.word < (corpusStream docs).indexOf it2.word
      rw [← hi1, ← hi2]
      exact hlt
  · intro w hw hnot e he
    rw [hout] at he
    rcases List.mem_map.mp he with ⟨it, hit, rfl⟩
    have hnot' : w ∉ (mostCommon 100 (corpusStream docs)).map CItem.word := by
      intro hmem
      apply hnot
      rw [hout, List.map_map]
      exact hmem
    exact mostCommon_top 100 (corpusStream docs) hw hnot' it hit

/-- C1 counterexample: on the single-document corpus with text `"b a"`
both tokens have count 1, and `top_100_words` lists them in
first-encountered order `["b", "a"]`; the claimed ascending lexicographic
tie-break would require `"a"` before `"b"`, so the claimed ordering
predicate fails on this output. -/
theorem top_100_words_not_lexicographic :
    ¬ List.Pairwise (fun e1 e2 : WordEntry =>
        e2.count < e1.count ∨ (e1.count = e2.count ∧ e1.word < e2.word))
      (mainReport [⟨"doc1.json", "b a"⟩]).top_100_words := by
  intro hpair
  have hmap : ((mainReport [⟨"doc1.json", "b a"⟩]).top_100_words).map
      (fun e => (e.word, e.count)) = [("b", 1), ("a", 1)] := by decide
  cases hl : (mainReport [⟨"doc1.json", "b a"⟩]).top_100_words with
  | nil =>
    rw [hl] at hmap
    simp at hmap
  | cons e1 tl =>
    cases tl with
    | nil =>
      rw [hl] at hmap
      simp at hmap
    | cons e2 tl2 =>
      cases tl2 with
      | cons e3 tl3 =>
        rw [hl] at hmap
        simp at hmap
      | nil =>
        rw [hl] at hmap
        simp only [List.map_cons, List.map_nil] at hmap
        injection hmap with h1 hrest
        injection hrest with h2 hnil
        have hw1 : e1.word = "b" := congrArg Prod.fst h1
        have hc1 : e1.count = 1 := congrArg Prod.snd h1
        have hw2 : e2.word = "a" := congrArg Prod.fst h2
        have hc2 : e2.count = 1 := congrArg Prod.snd h2
        rw [hl] at hpair
        have hrel := (List.pairwise_cons.mp hpair).1 e2 (by simp)
        rcases hrel with h | ⟨-, h⟩
        · omega
        · rw [hw1, hw2] at h
          exact absurd h (by rw [String.lt_iff_toList_lt]; decide)

/-! ### N-gram characterisation -/

theorem ngrams_length (S : List String) (n : Nat) :
    (ngrams S n).length = S.length + 1 - n := by
  rw [ngrams, List.length_map, List.length_range]

theorem ngrams_getD (S : List String) (n i : Nat) (h : i < S.length + 1 - n) :
    (ngrams S n).getD i "" = String.intercalate " " ((S.drop i).take n) := by
  have hlen : i < (ngrams S n).length := by
    rw [ngrams_length]
    exact h
  rw [List.getD_eq_getElem _ _ hlen]
  simp only [ngrams, List.getElem_map, List.getElem_range]

theorem topNgram_spec_aux (k n : Nat) (S : List String) :
    ((mostCommon k (ngrams S n)).map
      (fun it => (⟨it.word, it.count⟩ : NgramEntry))).length ≤ k ∧
    List.Pairwise (fun a b : NgramEntry => b.count ≤ a.count)
      ((mostCommon k (ngrams S n)).map (fun it => (⟨it.word, it.count⟩ : NgramEntry))) ∧
    (∀ e ∈ (mostCommon k (ngrams S n)).map (fun it => (⟨it.word, it.count⟩ : NgramEntry)),
      e.gram ∈ ngrams S n ∧ e.count = (ngrams S n).count e.gram) ∧
    (∀ g ∈ ngrams S n,
      g ∉ ((mostCommon k (ngrams S n)).map
        (fun it => (⟨it.word, it.count⟩ : NgramEntry))).map NgramEntry.gram →
      ∀ e ∈ (mostCommon k (ngrams S n)).map (fun it => (⟨it.word, it.count⟩ : NgramEntry)),
        (ngrams S n).count g ≤ e.count) := by
  refine ⟨?_, ?_, ?_, ?_⟩
  · rw [List.length_map]
    exact List.length_take_le _ _
  · rw [List.pairwise_map]
    apply List.Pairwise.imp ?_ (mostCommon_pairwise k (ngrams S n))
    intro a b hco
    rcases hco with h | ⟨h, _⟩
    · exact Nat.le_of_lt h
    · exact Nat.le_of_eq h
  · intro e he
    rcases List.mem_map.mp he with ⟨it, hit, rfl⟩
    obtain ⟨h1, h2, -⟩ := mem_mostCommon hit
    exact ⟨h1, h2⟩
  · intro g hg hnot e he
    rcases List.mem_map.mp he with ⟨it, hit, rfl⟩
    have hnot' : g ∉ (mostCommon k (ngrams S n)).map CItem.word := by
      intro hmem
      apply hnot
      rw [List.map_map]
      exact hmem
    exact mostCommon_top k (ngrams S n) hg hnot' it hit

/-- C4: bigrams and trigrams are built from the single concatenated,
lower-cased token stream of the whole corpus in its stable ingestion
order (so n-grams may span document boundaries); the `i`-th n-gram is the
space-joined sequence of `n` consecutive tokens of that stream;
occurrences are counted, and the top 100 by descending count are emitted
(each entry carrying the stream-wide occurrence count, no unlisted n-gram
outcounting a listed one). -/
theorem top_ngrams_spec (docs : List Doc) :
    (ngrams (corpusStream docs) 2).length = (corpusStream docs).length + 1 - 2 ∧
    (ngrams (corpusStream docs) 3).length = (corpusStream docs).length + 1 - 3 ∧
    (∀ i, i < (corpusStream docs).length + 1 - 2 →
      (ngrams (corpusStream docs) 2).getD i "" =
        String.intercalate " " (((corpusStream docs).drop i).take 2)) ∧
    (∀ i, i < (corpusStream docs).length + 1 - 3 →
      (ngrams (corpusStream docs) 3).getD i "" =
        String.intercalate " " (((corpusStream docs).drop i).take 3)) ∧
    (mainReport docs).top_bigrams.length ≤ 100 ∧
    List.Pairwise (fun a b : NgramEntry => b.count ≤ a.count)
      (mainReport docs).top_bigrams ∧
    (∀ e ∈ (mainReport docs).top_bigrams,
      e.gram ∈ ngrams (corpusStream docs) 2 ∧
      e.count = (ngrams (corpusStream docs) 2).count e.gram) ∧
    (∀ g ∈ ngrams (corpusStream docs) 2,
      g ∉ (mainReport docs).top_bigrams.map NgramEntry.gram →
      ∀ e ∈ (mainReport docs).top_bigrams,
        (ngrams (corpusStream docs) 2).count g ≤ e.count) ∧
    (mainReport docs).top_trigrams.length ≤ 100 ∧
    List.Pairwise (fun a b : NgramEntry => b.count ≤ a.count)
      (mainReport docs).top_trigrams ∧
    (∀ e ∈ (mainReport docs).top_trigrams,
      e.gram ∈ ngrams (corpusStream docs) 3 ∧
      e.count = (ngrams (corpusStream docs) 3).count e.gram) ∧
    (∀ g ∈ ngrams (corpusStream docs) 3,
      g ∉ (mainReport docs).top_trigrams.map NgramEntry.gram →
      ∀ e ∈ (mainReport docs).top_trigrams,
        (ngrams (corpusStream docs) 3).count g ≤ e.count) := by
  have hbg : (mainReport docs).top_bigrams =
      (mostCommon 100 (ngrams (corpusStream docs) 2)).map
        (fun it => (⟨it.word, it.count⟩ : NgramEntry)) := by
    rw [← lowered_stream docs]
    rfl
  have htg : (mainReport docs).top_trigrams =
      (mostCommon 100 (ngrams (corpusStream docs) 3)).map
        (fun it => (⟨it.word, it.count⟩ : NgramEntry)) := by
    rw [← lowered_stream docs]
    rfl
  obtain ⟨b1, b2, b3, b4⟩ := topNgram_spec_aux 100 2 (corpusStream docs)
  obtain ⟨t1, t2, t3, t4⟩ := topNgram_spec_aux 100 3 (corpusStream docs)
  refine ⟨ngrams_length _ 2, ngrams_length _ 3,
    fun i hi => ngrams_getD _ 2 i hi, fun i hi => ngrams_getD _ 3 i hi,
    ?_, ?_, ?_, ?_, ?_, ?_, ?_, ?_⟩
  · rw [hbg]; exact b1
  · rw [hbg]; exact b2
  · rw [hbg]; exact b3
  · rw [hbg]; exact b4
  · rw [htg]; exact t1
  · rw [htg]; exact t2
  · rw [htg]; exact t3
  · rw [htg]; exact t4

end Analyzer
